import Mathlib

/-!
Verification of the Index Construction & Return-Chaining Engine
(`src/index_calculation.py`, function `calculate_daily_index`).

The engine is embedded shallowly: the SQLite tables become explicit data,
numeric arithmetic is modelled with exact rationals, and the per-date loop
body becomes a state-transition function `processDate` folded over the
sorted distinct trading dates.
-/

attribute [local semireducible] Rat.inv Rat.mul Rat.add Rat.sub

/-- A row of the `daily_prices` table (the fields the engine reads). -/
structure PriceRec where
  symbol : String
  date : ℕ
  close_price : ℚ
  market_cap : ℚ
deriving DecidableEq

/-- The `daily_prices` table, in rowid order. -/
abbrev PriceDB := List PriceRec

/-- Configuration constant `BASE_INDEX_VALUE` from `config.py`. -/
def BASE_INDEX_VALUE : ℚ := 100

/-- Configuration constant `INDEX_SIZE` from `config.py` (the SQL `LIMIT 100`). -/
def INDEX_SIZE : ℕ := 100

/-- A row of the `index_composition` table. -/
structure CompRow where
  symbol : String
  rank_by_market_cap : ℕ
  market_cap : ℚ
  weight : ℚ
deriving DecidableEq

/-- A row of the `index_performance` table (the date is the key). -/
structure PerfRow where
  index_value : ℚ
  daily_return : ℚ
  cumulative_return : ℚ
  num_constituents : ℕ
deriving DecidableEq

/-- The two output tables, keyed by date: `index_composition` holds the list of
rows written for a date (in insertion order), `index_performance` at most one row. -/
@[ext]
structure Tables where
  comp : ℕ → List CompRow
  perf : ℕ → Option PerfRow

/-- The empty output tables. -/
def emptyTables : Tables := ⟨fun _ => [], fun _ => none⟩

/-- Insert a date into a strictly ascending list, keeping it strictly ascending
(used to model `SELECT DISTINCT date ... ORDER BY date`). -/
def ascInsert (x : ℕ) : List ℕ → List ℕ
  | [] => [x]
  | y :: ys => if x < y then x :: y :: ys else if x = y then y :: ys else y :: ascInsert x ys

/-- The query `SELECT DISTINCT date FROM daily_prices WHERE date BETWEEN ? AND ?
ORDER BY date`: the sorted duplicate-free list of dates in range. -/
def tradingDates (db : PriceDB) (start_date end_date : ℕ) : List ℕ :=
  ((db.filter (fun r => decide (start_date ≤ r.date) && decide (r.date ≤ end_date))).map
    (fun r => r.date)).foldr ascInsert []

/-- The `WHERE date = ? AND market_cap > 0 AND close_price > 0` filter of the
top-stocks query, in table (rowid) order. -/
def eligibleOn (db : PriceDB) (date : ℕ) : List PriceRec :=
  db.filter (fun r => r.date == date && decide (0 < r.market_cap) && decide (0 < r.close_price))

/-- Stable insertion into a list sorted by descending `market_cap`: the new
record goes after every strictly larger record and before equal ones, so
records with equal market cap keep their input order. -/
def insertMcapDesc (x : PriceRec) : List PriceRec → List PriceRec
  | [] => [x]
  | y :: ys => if x.market_cap < y.market_cap then y :: insertMcapDesc x ys else x :: y :: ys

/-- Stable sort by descending `market_cap`, modelling `ORDER BY market_cap DESC`. -/
def sortMcapDesc (l : List PriceRec) : List PriceRec :=
  l.foldr insertMcapDesc []

/-- The top-stocks query of `calculate_daily_index`: eligible records for the
date, sorted by market cap descending, truncated by `LIMIT 100`. -/
def selectTop (db : PriceDB) (date : ℕ) : List PriceRec :=
  (sortMcapDesc (eligibleOn db date)).take INDEX_SIZE

/-- Attach 1-based ranks (`range(1, len+1)`) and the equal weight to the
selected records, producing the `index_composition` rows for a date. -/
def rankRows (w : ℚ) : ℕ → List PriceRec → List CompRow
  | _, [] => []
  | i, r :: rs => ⟨r.symbol, i, r.market_cap, w⟩ :: rankRows w (i + 1) rs

/-- The composition rows written for a date: `weight = 1.0 / len(top_stocks)`,
`rank_by_market_cap = range(1, len(top_stocks) + 1)`. -/
def compositionFor (db : PriceDB) (date : ℕ) : List CompRow :=
  rankRows (1 / ((selectTop db date).length : ℚ)) 1 (selectTop db date)

/-- The query `SELECT close_price FROM daily_prices WHERE symbol = ? AND date = ?`
followed by `iloc[0]` on a non-empty result: the first matching row's close. -/
def priceOf (db : PriceDB) (symbol : String) (date : ℕ) : Option ℚ :=
  (db.find? (fun r => r.symbol == symbol && r.date == date)).map (fun r => r.close_price)

/-- The accumulation loop over the previous composition: a row contributes
`weight * (current/previous - 1)` to the first component and `weight` to the
second when both prices exist and the previous price is positive. -/
def returnTotals (db : PriceDB) (date prevDate : ℕ) (rows : List CompRow) : ℚ × ℚ :=
  rows.foldl
    (fun acc row =>
      match priceOf db row.symbol date, priceOf db row.symbol prevDate with
      | some cp, some pp =>
          if 0 < pp then (acc.1 + row.weight * (cp / pp - 1), acc.2 + row.weight) else acc
      | _, _ => acc)
    (0, 0)

/-- Whether a previous-composition row has valid price continuity: a close price
recorded on both dates and a positive previous price. -/
def validRow (db : PriceDB) (date prevDate : ℕ) (row : CompRow) : Bool :=
  match priceOf db row.symbol date, priceOf db row.symbol prevDate with
  | some _, some pp => decide (0 < pp)
  | _, _ => false

/-- The per-stock return `current_price / previous_price - 1` (0 when a price is
missing; only ever used on rows with valid continuity). -/
def stockReturn (db : PriceDB) (date prevDate : ℕ) (row : CompRow) : ℚ :=
  match priceOf db row.symbol date, priceOf db row.symbol prevDate with
  | some cp, some pp => cp / pp - 1
  | _, _ => 0

/-- The numerator of the re-normalized daily return as the spec describes it:
the sum of `weight * stock_return` over exactly the valid-continuity rows. -/
def weightedNum (db : PriceDB) (date prevDate : ℕ) (rows : List CompRow) : ℚ :=
  ((rows.filter (validRow db date prevDate)).map
    (fun r => r.weight * stockReturn db date prevDate r)).sum

/-- The denominator of the re-normalized daily return: the sum of the weights of
exactly the valid-continuity rows. -/
def validWeightSum (db : PriceDB) (date prevDate : ℕ) (rows : List CompRow) : ℚ :=
  ((rows.filter (validRow db date prevDate)).map (fun r => r.weight)).sum

/-- The state threaded through the date loop: the two output tables,
`previous_index_value`, and `len(index_values)` (the count of processed dates). -/
structure EngState where
  comp : ℕ → List CompRow
  perf : ℕ → Option PerfRow
  prevVal : ℚ
  count : ℕ

/-- The non-first-date branch of the return calculation: carry the value forward
when the previous composition is empty, otherwise normalize the accumulated
return by the valid weights (0 when no weight is valid). Returns
(index_value, daily_return, cumulative_return). -/
def dailyFromPrev (db : PriceDB) (date prevDate : ℕ) (prevComp : List CompRow)
    (prevVal : ℚ) : ℚ × ℚ × ℚ :=
  if prevComp = [] then (prevVal, 0, prevVal / BASE_INDEX_VALUE - 1)
  else
    let t := returnTotals db date prevDate prevComp
    let dr := if 0 < t.2 then t.1 / t.2 else 0
    let iv := prevVal * (1 + dr)
    (iv, dr, iv / BASE_INDEX_VALUE - 1)

/-- The (index_value, daily_return, cumulative_return) triple computed for a
non-skipped date: base values on the first processed date
(`len(index_values) == 0`), otherwise `dailyFromPrev` against the composition
stored at `prev_date = dates[len(index_values) - 1]` (read from the table state
after the current date's composition was written). -/
def perfTriple (db : PriceDB) (allDates : List ℕ) (st : EngState) (date : ℕ) : ℚ × ℚ × ℚ :=
  if st.count = 0 then (BASE_INDEX_VALUE, 0, 0)
  else
    dailyFromPrev db date (allDates.getD (st.count - 1) 0)
      (if allDates.getD (st.count - 1) 0 = date then compositionFor db date
       else st.comp (allDates.getD (st.count - 1) 0))
      st.prevVal

/-- One iteration of the date loop of `calculate_daily_index`: skip the date when
no eligible stock exists, otherwise replace the date's composition rows, compute
the performance triple, replace the date's performance row, append to
`index_values` and update `previous_index_value`. -/
def processDate (db : PriceDB) (allDates : List ℕ) (st : EngState) (date : ℕ) : EngState :=
  if selectTop db date = [] then st
  else
    { comp := fun d => if d = date then compositionFor db date else st.comp d
      perf := fun d =>
        if d = date then
          some ⟨(perfTriple db allDates st date).1, (perfTriple db allDates st date).2.1,
            (perfTriple db allDates st date).2.2, (selectTop db date).length⟩
        else st.perf d
      prevVal := (perfTriple db allDates st date).1
      count := st.count + 1 }

/-- Fold of `processDate` over the remaining dates. -/
def runAux (db : PriceDB) (allDates : List ℕ) : EngState → List ℕ → EngState
  | st, [] => st
  | st, d :: ds => runAux db allDates (processDate db allDates st d) ds

/-- The function `calculate_daily_index(conn, start_date, end_date)`: a pass over
the sorted distinct trading dates in range, starting from
`previous_index_value = BASE_INDEX_VALUE` and an empty `index_values` list,
mutating the two output tables. Returns the tables unchanged when no trading
date lies in the range. -/
def calculate_daily_index (db : PriceDB) (start_date end_date : ℕ) (t : Tables) : Tables :=
  if tradingDates db start_date end_date = [] then t
  else
    ⟨(runAux db (tradingDates db start_date end_date) ⟨t.comp, t.perf, BASE_INDEX_VALUE, 0⟩
        (tradingDates db start_date end_date)).comp,
     (runAux db (tradingDates db start_date end_date) ⟨t.comp, t.perf, BASE_INDEX_VALUE, 0⟩
        (tradingDates db start_date end_date)).perf⟩

/-- The price history exhibiting a skipped date followed by later dates: date 2
appears in `daily_prices` but has no eligible stock (market cap 0), dates 1, 3
and 4 have two eligible stocks each, and both stocks gain 10% from date 3 to
date 4. -/
def exDb : PriceDB :=
  [⟨"A", 1, 100, 1000⟩, ⟨"B", 1, 50, 900⟩,
   ⟨"A", 2, 100, 0⟩,
   ⟨"A", 3, 100, 1000⟩, ⟨"B", 3, 50, 900⟩,
   ⟨"A", 4, 110, 1100⟩, ⟨"B", 4, 55, 990⟩]

/-- The tables produced by running the engine on `exDb` over dates 1..4. -/
def exRun : Tables := calculate_daily_index exDb 1 4 emptyTables

/-- A small price history used for witnesses: two eligible stocks on date 1,
only stock A priced on date 2. -/
def wDb : PriceDB := [⟨"A", 1, 100, 1000⟩, ⟨"B", 1, 50, 900⟩, ⟨"A", 2, 110, 1100⟩]

/-- A price history equal to `wDb` except for an extra ineligible record
(close price 0) on date 1. -/
def wDbC : PriceDB :=
  [⟨"A", 1, 100, 1000⟩, ⟨"B", 1, 50, 900⟩, ⟨"A", 2, 110, 1100⟩, ⟨"C", 1, 0, 50⟩]

/-- A fresh engine state (empty tables, base value, nothing processed). -/
def stFresh : EngState := ⟨fun _ => [], fun _ => none, BASE_INDEX_VALUE, 0⟩

/-- The engine state after processing date 1 of `wDb`: its composition for
date 1 stored, one date processed. -/
def stC1 : EngState :=
  ⟨fun d => if d = 1 then [⟨"A", 1, 1000, 1 / 2⟩, ⟨"B", 2, 900, 1 / 2⟩] else [],
   fun _ => none, 100, 1⟩

/-- An engine state claiming one processed date but with no stored composition
anywhere (the NoPriorComposition situation). -/
def stC3 : EngState := ⟨fun _ => [], fun _ => none, 100, 1⟩

/-- An engine state whose stored composition for date 0 mentions only a symbol
with no recorded prices in `wDb`. -/
def stC7 : EngState :=
  ⟨fun d => if d = 0 then [⟨"Z", 1, 500, 1⟩] else [], fun _ => none, 100, 1⟩

theorem insertMcapDesc_perm (x : PriceRec) (l : List PriceRec) :
    List.Perm (insertMcapDesc x l) (x :: l) := by
  induction l with
  | nil => exact List.Perm.refl _
  | cons y ys ih =>
    rw [insertMcapDesc]
    by_cases h : x.market_cap < y.market_cap
    · rw [if_pos h]
      exact (ih.cons y).trans (List.Perm.swap x y ys)
    · rw [if_neg h]

theorem sortMcapDesc_perm (l : List PriceRec) : List.Perm (sortMcapDesc l) l := by
  induction l with
  | nil => exact List.Perm.refl _
  | cons x xs ih => exact (insertMcapDesc_perm x (sortMcapDesc xs)).trans (ih.cons x)

theorem insertMcapDesc_pairwise (x : PriceRec) (l : List PriceRec)
    (h : l.Pairwise (fun a b => b.market_cap ≤ a.market_cap)) :
    (insertMcapDesc x l).Pairwise (fun a b => b.market_cap ≤ a.market_cap) := by
  induction l with
  | nil => simp [insertMcapDesc]
  | cons y ys ih =>
    rw [List.pairwise_cons] at h
    rw [insertMcapDesc]
    by_cases hlt : x.market_cap < y.market_cap
    · rw [if_pos hlt, List.pairwise_cons]
      refine ⟨fun z hz => ?_, ih h.2⟩
      have hz' : z ∈ x :: ys := (insertMcapDesc_perm x ys).mem_iff.mp hz
      rw [List.mem_cons] at hz'
      rcases hz' with hzx | hzys
      · subst hzx
        exact le_of_lt hlt
      · exact h.1 z hzys
    · rw [if_neg hlt, List.pairwise_cons]
      refine ⟨fun z hz => ?_, List.pairwise_cons.mpr h⟩
      rw [List.mem_cons] at hz
      rcases hz with hz | hz
      · subst hz
        exact le_of_not_lt hlt
      · exact le_trans (h.1 z hz) (le_of_not_lt hlt)

theorem sortMcapDesc_pairwise (l : List PriceRec) :
    (sortMcapDesc l).Pairwise (fun a b => b.market_cap ≤ a.market_cap) := by
  induction l with
  | nil => simp [sortMcapDesc]
  | cons x xs ih => exact insertMcapDesc_pairwise x (sortMcapDesc xs) ih

theorem insertMcapDesc_filter (x : PriceRec) (l : List PriceRec) (c : ℚ) :
    (insertMcapDesc x l).filter (fun r => decide (r.market_cap = c)) =
      if x.market_cap = c then x :: l.filter (fun r => decide (r.market_cap = c))
      else l.filter (fun r => decide (r.market_cap = c)) := by
  induction l with
  | nil =>
    by_cases hx : x.market_cap = c <;> simp [insertMcapDesc, List.filter_cons, hx]
  | cons y ys ih =>
    rw [insertMcapDesc]
    by_cases hlt : x.market_cap < y.market_cap
    · rw [if_pos hlt]
      by_cases hx : x.market_cap = c
      · have hy : ¬ y.market_cap = c := by
          intro hy
          rw [hx, hy] at hlt
          exact lt_irrefl c hlt
        simp [List.filter_cons, hx, hy, ih]
      · by_cases hy : y.market_cap = c <;> simp [List.filter_cons, hx, hy, ih]
    · rw [if_neg hlt]
      by_cases hx : x.market_cap = c <;>
        by_cases hy : y.market_cap = c <;> simp [List.filter_cons, hx, hy]

theorem sortMcapDesc_filter (l : List PriceRec) (c : ℚ) :
    (sortMcapDesc l).filter (fun r => decide (r.market_cap = c)) =
      l.filter (fun r => decide (r.market_cap = c)) := by
  induction l with
  | nil => rfl
  | cons x xs ih =>
    have : sortMcapDesc (x :: xs) = insertMcapDesc x (sortMcapDesc xs) := rfl
    rw [this, insertMcapDesc_filter]
    by_cases hx : x.market_cap = c <;> simp [List.filter_cons, hx, ih]

theorem rankRows_length (w : ℚ) : ∀ (i : ℕ) (l : List PriceRec),
    (rankRows w i l).length = l.length := by
  intro i l
  induction l generalizing i with
  | nil => rfl
  | cons r rs ih => simp [rankRows, ih]

theorem rankRows_map_weight (w : ℚ) : ∀ (i : ℕ) (l : List PriceRec),
    (rankRows w i l).map (fun r => r.weight) = List.replicate l.length w := by
  intro i l
  induction l generalizing i with
  | nil => rfl
  | cons r rs ih => simp [rankRows, ih, List.replicate_succ]

theorem rankRows_map_rank (w : ℚ) : ∀ (i : ℕ) (l : List PriceRec),
    (rankRows w i l).map (fun r => r.rank_by_market_cap) = List.range' i l.length := by
  intro i l
  induction l generalizing i with
  | nil => rfl
  | cons r rs ih => simp [rankRows, ih, List.range']

theorem rankRows_map_symcap (w : ℚ) : ∀ (i : ℕ) (l : List PriceRec),
    (rankRows w i l).map (fun r => (r.symbol, r.market_cap)) =
      l.map (fun r => (r.symbol, r.market_cap)) := by
  intro i l
  induction l generalizing i with
  | nil => rfl
  | cons r rs ih => simp [rankRows, ih]

theorem rankRows_map_mcap (w : ℚ) : ∀ (i : ℕ) (l : List PriceRec),
    (rankRows w i l).map (fun r => r.market_cap) = l.map (fun r => r.market_cap) := by
  intro i l
  induction l generalizing i with
  | nil => rfl
  | cons r rs ih => simp [rankRows, ih]

theorem mem_ascInsert (z x : ℕ) (l : List ℕ) (h : z ∈ ascInsert x l) : z = x ∨ z ∈ l := by
  induction l with
  | nil => simpa [ascInsert] using h
  | cons y ys ih =>
    rw [ascInsert] at h
    by_cases h1 : x < y
    · rw [if_pos h1] at h
      rw [List.mem_cons] at h
      rcases h with h | h
      · exact Or.inl h
      · exact Or.inr h
    · rw [if_neg h1] at h
      by_cases h2 : x = y
      · rw [if_pos h2] at h
        exact Or.inr h
      · rw [if_neg h2] at h
        rw [List.mem_cons] at h
        rcases h with h | h
        · exact Or.inr (by rw [List.mem_cons]; exact Or.inl h)
        · rcases ih h with h' | h'
          · exact Or.inl h'
          · exact Or.inr (by rw [List.mem_cons]; exact Or.inr h')

theorem ascInsert_pairwise (x : ℕ) (l : List ℕ) (h : l.Pairwise (· < ·)) :
    (ascInsert x l).Pairwise (· < ·) := by
  induction l with
  | nil => simp [ascInsert]
  | cons y ys ih =>
    rw [List.pairwise_cons] at h
    rw [ascInsert]
    by_cases h1 : x < y
    · rw [if_pos h1, List.pairwise_cons]
      refine ⟨fun z hz => ?_, List.pairwise_cons.mpr h⟩
      rw [List.mem_cons] at hz
      rcases hz with hz | hz
      · subst hz
        exact h1
      · exact lt_trans h1 (h.1 z hz)
    · rw [if_neg h1]
      by_cases h2 : x = y
      · rw [if_pos h2]
        exact List.pairwise_cons.mpr h
      · rw [if_neg h2]
        have hyx : y < x := by omega
        rw [List.pairwise_cons]
        refine ⟨fun z hz => ?_, ih h.2⟩
        rcases mem_ascInsert z x ys hz with hzx | hzys
        · subst hzx
          exact hyx
        · exact h.1 z hzys

theorem foldr_ascInsert_pairwise (l : List ℕ) :
    (l.foldr ascInsert []).Pairwise (· < ·) := by
  induction l with
  | nil => simp
  | cons d ds ih => exact ascInsert_pairwise d _ ih

theorem tradingDates_sorted (db : PriceDB) (start_date end_date : ℕ) :
    (tradingDates db start_date end_date).Pairwise (· < ·) :=
  foldr_ascInsert_pairwise _

theorem tradingDates_nodup (db : PriceDB) (start_date end_date : ℕ) :
    (tradingDates db start_date end_date).Nodup :=
  (tradingDates_sorted db start_date end_date).imp (fun h => Nat.ne_of_lt h)

theorem returnTotals_eq (db : PriceDB) (date prevDate : ℕ) (rows : List CompRow) :
    returnTotals db date prevDate rows =
      (weightedNum db date prevDate rows, validWeightSum db date prevDate rows) := by
  have key : ∀ (rs : List CompRow) (a b : ℚ),
      rs.foldl
        (fun acc row =>
          match priceOf db row.symbol date, priceOf db row.symbol prevDate with
          | some cp, some pp =>
              if 0 < pp then (acc.1 + row.weight * (cp / pp - 1), acc.2 + row.weight) else acc
          | _, _ => acc)
        (a, b) =
      (a + weightedNum db date prevDate rs, b + validWeightSum db date prevDate rs) := by
    intro rs
    induction rs with
    | nil => intro a b; simp [weightedNum, validWeightSum]
    | cons r rs ih =>
      intro a b
      rw [List.foldl_cons]
      rcases hc : priceOf db r.symbol date with _ | cp
      · have hv : validRow db date prevDate r = false := by simp [validRow, hc]
        simpa [hc, weightedNum, validWeightSum, List.filter_cons, hv] using ih a b
      · rcases hp : priceOf db r.symbol prevDate with _ | pp
        · have hv : validRow db date prevDate r = false := by simp [validRow, hc, hp]
          simpa [hc, hp, weightedNum, validWeightSum, List.filter_cons, hv] using ih a b
        · by_cases hpp : 0 < pp
          · have hv : validRow db date prevDate r = true := by simp [validRow, hc, hp, hpp]
            have hs : stockReturn db date prevDate r = cp / pp - 1 := by
              simp [stockReturn, hc, hp]
            simp only [hc, hp, if_pos hpp]
            rw [ih]
            simp [weightedNum, validWeightSum, List.filter_cons, hv, hs]
            constructor <;> ring
          · have hv : validRow db date prevDate r = false := by simp [validRow, hc, hp, hpp]
            simp only [hc, hp, if_neg hpp]
            simpa [weightedNum, validWeightSum, List.filter_cons, hv] using ih a b
  simpa [returnTotals] using key rows 0 0

theorem processDate_perf_at (db : PriceDB) (allDates : List ℕ) (st : EngState) (date : ℕ)
    (hsel : selectTop db date ≠ []) :
    (processDate db allDates st date).perf date =
      some ⟨(perfTriple db allDates st date).1, (perfTriple db allDates st date).2.1,
        (perfTriple db allDates st date).2.2, (selectTop db date).length⟩ := by
  rw [processDate, if_neg hsel]
  simp

theorem perfTriple_eq_daily (db : PriceDB) (allDates : List ℕ) (st : EngState) (date : ℕ)
    (hcount : st.count ≠ 0) (hpd : allDates.getD (st.count - 1) 0 ≠ date) :
    perfTriple db allDates st date =
      dailyFromPrev db date (allDates.getD (st.count - 1) 0)
        (st.comp (allDates.getD (st.count - 1) 0)) st.prevVal := by
  rw [perfTriple, if_neg hcount, if_neg hpd]

/-- Claim C1: on a non-first processed date whose previous-date pointer differs
from the current date and whose previous composition has positive valid weight,
the written daily return is the weighted sum of `current/previous - 1` over
exactly the symbols with a close price on both dates and positive previous
price, divided by the sum of exactly those symbols' weights (re-normalization
over the valid-weight subset; symbols missing a price contribute to neither
sum). -/
theorem spec_C1 (db : PriceDB) (allDates : List ℕ) (st : EngState) (date : ℕ)
    (hcount : st.count ≠ 0)
    (hsel : selectTop db date ≠ [])
    (hpd : allDates.getD (st.count - 1) 0 ≠ date)
    (hvw : 0 < validWeightSum db date (allDates.getD (st.count - 1) 0)
        (st.comp (allDates.getD (st.count - 1) 0))) :
    ((processDate db allDates st date).perf date).map (fun p => p.daily_return) =
      some (weightedNum db date (allDates.getD (st.count - 1) 0)
          (st.comp (allDates.getD (st.count - 1) 0)) /
        validWeightSum db date (allDates.getD (st.count - 1) 0)
          (st.comp (allDates.getD (st.count - 1) 0))) := by
  have hprevne : st.comp (allDates.getD (st.count - 1) 0) ≠ [] := by
    intro h0
    rw [h0] at hvw
    simp [validWeightSum] at hvw
  rw [processDate_perf_at db allDates st date hsel,
    perfTriple_eq_daily db allDates st date hcount hpd]
  simp only [dailyFromPrev, if_neg hprevne, returnTotals_eq, if_pos hvw]
  simp

/-- Part of claim C3 as amended: when the previous-date pointer's composition is
empty, the engine does not abort; it writes a performance entry whose
daily return is 0, whose index value is the carried `previous_index_value`, and
whose cumulative return is recomputed from that value. -/
theorem spec_C3 (db : PriceDB) (allDates : List ℕ) (st : EngState) (date : ℕ)
    (hcount : st.count ≠ 0)
    (hsel : selectTop db date ≠ [])
    (hpd : allDates.getD (st.count - 1) 0 ≠ date)
    (hprev : st.comp (allDates.getD (st.count - 1) 0) = []) :
    (processDate db allDates st date).perf date =
      some ⟨st.prevVal, 0, st.prevVal / BASE_INDEX_VALUE - 1, (selectTop db date).length⟩ := by
  rw [processDate_perf_at db allDates st date hsel,
    perfTriple_eq_daily db allDates st date hcount hpd, dailyFromPrev, if_pos hprev]

/-- Claim C4: the constituent selection for a date is the eligible records
(market cap and close both positive) sorted by market cap descending (a
permutation of the eligible records, pairwise descending), truncated to
`INDEX_SIZE`; every entry's weight is `1 / min(INDEX_SIZE, count(eligible))`,
and the ranks are the contiguous 1-based sequence. -/
theorem spec_C4 (db : PriceDB) (date : ℕ) :
    List.Perm (sortMcapDesc (eligibleOn db date)) (eligibleOn db date) ∧
    (sortMcapDesc (eligibleOn db date)).Pairwise
      (fun a b => b.market_cap ≤ a.market_cap) ∧
    (compositionFor db date).Pairwise (fun a b => b.market_cap ≤ a.market_cap) ∧
    (compositionFor db date).map (fun r => (r.symbol, r.market_cap)) =
      ((sortMcapDesc (eligibleOn db date)).take INDEX_SIZE).map
        (fun r => (r.symbol, r.market_cap)) ∧
    (compositionFor db date).length = min INDEX_SIZE (eligibleOn db date).length ∧
    (compositionFor db date).map (fun r => r.weight) =
      List.replicate (compositionFor db date).length
        (1 / ((min INDEX_SIZE (eligibleOn db date).length : ℕ) : ℚ)) ∧
    (compositionFor db date).map (fun r => r.rank_by_market_cap) =
      List.range' 1 (compositionFor db date).length := by
  have hlen : (selectTop db date).length = min INDEX_SIZE (eligibleOn db date).length := by
    rw [selectTop, List.length_take, (sortMcapDesc_perm (eligibleOn db date)).length_eq]
  have hsel : (selectTop db date).Pairwise (fun a b => b.market_cap ≤ a.market_cap) :=
    (sortMcapDesc_pairwise (eligibleOn db date)).sublist (List.take_sublist _ _)
  refine ⟨sortMcapDesc_perm _, sortMcapDesc_pairwise _, ?_, ?_, ?_, ?_, ?_⟩
  · have hmap : ((compositionFor db date).map (fun r => r.market_cap)).Pairwise
        (fun a b => b ≤ a) := by
      rw [compositionFor, rankRows_map_mcap]
      exact List.pairwise_map.mpr hsel
    exact List.pairwise_map.mp hmap
  · rw [compositionFor, rankRows_map_symcap, selectTop]
  · rw [compositionFor, rankRows_length, hlen]
  · rw [compositionFor, rankRows_map_weight, rankRows_length, hlen]
  · rw [compositionFor, rankRows_map_rank, rankRows_length]

/-- Claim C6: for every date with a non-empty composition, the weights of the
written composition rows sum to 1 within the 1e-9 tolerance (they sum to 1
exactly in rational arithmetic). -/
theorem spec_C6 (db : PriceDB) (date : ℕ) (h : compositionFor db date ≠ []) :
    |((compositionFor db date).map (fun r => r.weight)).sum - 1| ≤ 1 / 1000000000 := by
  have hne : (selectTop db date).length ≠ 0 := by
    intro h0
    apply h
    rw [compositionFor, List.length_eq_zero.mp h0]
    rfl
  have hsum : ((compositionFor db date).map (fun r => r.weight)).sum = 1 := by
    rw [compositionFor, rankRows_map_weight, List.sum_replicate, nsmul_eq_mul, mul_one_div,
      div_self (Nat.cast_ne_zero.mpr hne)]
  rw [hsum]
  norm_num

/-- Part of claim C7: on a non-first processed date on which no row of the
previous composition has valid price continuity, the written performance entry
has daily return 0 and carries the index value forward unchanged. -/
theorem spec_C7 (db : PriceDB) (allDates : List ℕ) (st : EngState) (date : ℕ)
    (hcount : st.count ≠ 0)
    (hsel : selectTop db date ≠ [])
    (hpd : allDates.getD (st.count - 1) 0 ≠ date)
    (hprevne : st.comp (allDates.getD (st.count - 1) 0) ≠ [])
    (hvalid : ∀ r ∈ st.comp (allDates.getD (st.count - 1) 0),
      validRow db date (allDates.getD (st.count - 1) 0) r = false) :
    (processDate db allDates st date).perf date =
      some ⟨st.prevVal, 0, st.prevVal / BASE_INDEX_VALUE - 1, (selectTop db date).length⟩ := by
  have hfil : (st.comp (allDates.getD (st.count - 1) 0)).filter
      (validRow db date (allDates.getD (st.count - 1) 0)) = [] := by
    rw [List.filter_eq_nil_iff]
    intro a ha
    exact fun hb => Bool.false_ne_true ((hvalid a ha).symm.trans hb)
  have hnum : weightedNum db date (allDates.getD (st.count - 1) 0)
      (st.comp (allDates.getD (st.count - 1) 0)) = 0 := by
    rw [weightedNum, hfil]
    rfl
  have hden : validWeightSum db date (allDates.getD (st.count - 1) 0)
      (st.comp (allDates.getD (st.count - 1) 0)) = 0 := by
    rw [validWeightSum, hfil]
    rfl
  rw [processDate_perf_at db allDates st date hsel,
    perfTriple_eq_daily db allDates st date hcount hpd]
  simp only [dailyFromPrev, if_neg hprevne, returnTotals_eq, hnum, hden, lt_self_iff_false,
    if_false]
  simp

/-- Claim C8: constituent selection is a pure function of the eligible records
of the date (equal eligible inputs give equal compositions), and the descending
market-cap sort is stable: the records of any fixed market cap appear in the
output in exactly their input order. -/
theorem spec_C8 :
    (∀ (db1 db2 : PriceDB) (date : ℕ), eligibleOn db1 date = eligibleOn db2 date →
      compositionFor db1 date = compositionFor db2 date) ∧
    (∀ (l : List PriceRec) (c : ℚ),
      (sortMcapDesc l).filter (fun r => decide (r.market_cap = c)) =
        l.filter (fun r => decide (r.market_cap = c))) := by
  constructor
  · intro db1 db2 date h
    rw [compositionFor, compositionFor, selectTop, selectTop, h]
  · exact sortMcapDesc_filter

/-- Claim C10: on every processed date, the `num_constituents` field written to
the performance table equals the number of composition rows written for the same
date. -/
theorem spec_C10 (db : PriceDB) (allDates : List ℕ) (st : EngState) (date : ℕ)
    (hsel : selectTop db date ≠ []) :
    ((processDate db allDates st date).perf date).map (fun p => p.num_constituents) =
      some ((processDate db allDates st date).comp date).length := by
  rw [processDate, if_neg hsel]
  simp [compositionFor, rankRows_length]

theorem spec_C1_witness :
    stC1.count ≠ 0 ∧ selectTop wDb 2 ≠ [] ∧ [1, 2].getD (stC1.count - 1) 0 ≠ 2 ∧
    0 < validWeightSum wDb 2 ([1, 2].getD (stC1.count - 1) 0)
        (stC1.comp ([1, 2].getD (stC1.count - 1) 0)) ∧
    ((processDate wDb [1, 2] stC1 2).perf 2).map (fun p => p.daily_return) =
      some (weightedNum wDb 2 ([1, 2].getD (stC1.count - 1) 0)
          (stC1.comp ([1, 2].getD (stC1.count - 1) 0)) /
        validWeightSum wDb 2 ([1, 2].getD (stC1.count - 1) 0)
          (stC1.comp ([1, 2].getD (stC1.count - 1) 0))) :=
  ⟨by decide, by decide, by decide, by decide,
   spec_C1 wDb [1, 2] stC1 2 (by decide) (by decide) (by decide) (by decide)⟩

theorem spec_C3_witness :
    stC3.count ≠ 0 ∧ selectTop wDb 1 ≠ [] ∧ [0, 1].getD (stC3.count - 1) 0 ≠ 1 ∧
    stC3.comp ([0, 1].getD (stC3.count - 1) 0) = [] ∧
    (processDate wDb [0, 1] stC3 1).perf 1 =
      some ⟨stC3.prevVal, 0, stC3.prevVal / BASE_INDEX_VALUE - 1, (selectTop wDb 1).length⟩ :=
  ⟨by decide, by decide, by decide, by decide,
   spec_C3 wDb [0, 1] stC3 1 (by decide) (by decide) (by decide) (by decide)⟩

theorem spec_C6_witness :
    compositionFor wDb 1 ≠ [] ∧
    |((compositionFor wDb 1).map (fun r => r.weight)).sum - 1| ≤ 1 / 1000000000 :=
  ⟨by decide, spec_C6 wDb 1 (by decide)⟩

theorem spec_C7_witness :
    stC7.count ≠ 0 ∧ selectTop wDb 1 ≠ [] ∧ [0, 1].getD (stC7.count - 1) 0 ≠ 1 ∧
    stC7.comp ([0, 1].getD (stC7.count - 1) 0) ≠ [] ∧
    (∀ r ∈ stC7.comp ([0, 1].getD (stC7.count - 1) 0),
      validRow wDb 1 ([0, 1].getD (stC7.count - 1) 0) r = false) ∧
    (processDate wDb [0, 1] stC7 1).perf 1 =
      some ⟨stC7.prevVal, 0, stC7.prevVal / BASE_INDEX_VALUE - 1, (selectTop wDb 1).length⟩ :=
  ⟨by decide, by decide, by decide, by decide, by decide,
   spec_C7 wDb [0, 1] stC7 1 (by decide) (by decide) (by decide) (by decide) (by decide)⟩

theorem spec_C8_witness :
    eligibleOn wDbC 1 = eligibleOn wDb 1 ∧
    compositionFor wDbC 1 = compositionFor wDb 1 :=
  ⟨by decide, spec_C8.1 wDbC wDb 1 (by decide)⟩

theorem spec_C10_witness :
    selectTop wDb 1 ≠ [] ∧
    ((processDate wDb [1, 2] stFresh 1).perf 1).map (fun p => p.num_constituents) =
      some ((processDate wDb [1, 2] stFresh 1).comp 1).length :=
  ⟨by decide, spec_C10 wDb [1, 2] stFresh 1 (by decide)⟩

/-- Claim C2 (failing input): on `exDb` the engine processes dates 1, 3, 4 and
skips date 2; at date 4 it takes `dates[len(index_values) - 1] = 2` as the
previous date, finds no composition there, and writes daily return 0 with the
index value carried forward — although date 3, the most recent earlier date with
a composition, is available and its composition has full valid-weight
continuity into date 4 with re-normalized return 1/10. -/
theorem spec_C2_failing :
    tradingDates exDb 1 4 = [1, 2, 3, 4] ∧
    exRun.comp 2 = [] ∧
    exRun.comp 3 ≠ [] ∧
    exRun.perf 3 = some ⟨100, 0, 0, 2⟩ ∧
    exRun.perf 4 = some ⟨100, 0, 0, 2⟩ ∧
    0 < validWeightSum exDb 4 3 (exRun.comp 3) ∧
    weightedNum exDb 4 3 (exRun.comp 3) / validWeightSum exDb 4 3 (exRun.comp 3) = 1 / 10 :=
  ⟨by decide, by decide, by decide, by decide, by decide, by decide, by decide⟩

/-- Claim C3 (counterexample to the claim as stated): at date 4 of `exDb` the
predecessor date used by the return calculation (date 2) has no persisted
composition, yet the run does not abort — a PerformanceEntry row for date 4 is
written (with the value carried forward). -/
theorem spec_C3_counterexample :
    exRun.comp 2 = [] ∧ exRun.perf 4 = some ⟨100, 0, 0, 2⟩ ∧ exRun.perf 4 ≠ none :=
  ⟨by decide, by decide, by decide⟩

theorem processDate_skip (db : PriceDB) (all : List ℕ) (st : EngState) (date : ℕ)
    (hsel : selectTop db date = []) : processDate db all st date = st := by
  rw [processDate, if_pos hsel]

theorem processDate_comp_pos (db : PriceDB) (all : List ℕ) (st : EngState) (date : ℕ)
    (hsel : selectTop db date ≠ []) (d : ℕ) :
    (processDate db all st date).comp d =
      if d = date then compositionFor db date else st.comp d := by
  rw [processDate, if_neg hsel]

theorem processDate_perf_pos (db : PriceDB) (all : List ℕ) (st : EngState) (date : ℕ)
    (hsel : selectTop db date ≠ []) (d : ℕ) :
    (processDate db all st date).perf d =
      if d = date then
        some ⟨(perfTriple db all st date).1, (perfTriple db all st date).2.1,
          (perfTriple db all st date).2.2, (selectTop db date).length⟩
      else st.perf d := by
  rw [processDate, if_neg hsel]

theorem processDate_prevVal_pos (db : PriceDB) (all : List ℕ) (st : EngState) (date : ℕ)
    (hsel : selectTop db date ≠ []) :
    (processDate db all st date).prevVal = (perfTriple db all st date).1 := by
  rw [processDate, if_neg hsel]

theorem processDate_count_pos (db : PriceDB) (all : List ℕ) (st : EngState) (date : ℕ)
    (hsel : selectTop db date ≠ []) :
    (processDate db all st date).count = st.count + 1 := by
  rw [processDate, if_neg hsel]

theorem getD_append_left (l l' : List ℕ) (i : ℕ) (d : ℕ) (h : i < l.length) :
    (l ++ l').getD i d = l.getD i d := by
  induction l generalizing i with
  | nil => simp at h
  | cons a as ih =>
    cases i with
    | zero => rfl
    | succ n => exact ih n (Nat.lt_of_succ_lt_succ h)

theorem getD_mem (l : List ℕ) (i : ℕ) (d : ℕ) (h : i < l.length) : l.getD i d ∈ l := by
  induction l generalizing i with
  | nil => simp at h
  | cons a as ih =>
    cases i with
    | zero => exact List.mem_cons_self a as
    | succ n => exact List.mem_cons_of_mem a (ih n (Nat.lt_of_succ_lt_succ h))

theorem runAux_untouched (db : PriceDB) (all : List ℕ) (ds : List ℕ) :
    ∀ (st : EngState) (d : ℕ), (d ∉ ds ∨ selectTop db d = []) →
      (runAux db all st ds).comp d = st.comp d ∧ (runAux db all st ds).perf d = st.perf d := by
  induction ds with
  | nil => exact fun st d _ => ⟨rfl, rfl⟩
  | cons d0 rest ih =>
    intro st d h
    have hstep : (processDate db all st d0).comp d = st.comp d ∧
        (processDate db all st d0).perf d = st.perf d := by
      by_cases hsel : selectTop db d0 = []
      · rw [processDate_skip db all st d0 hsel]
        exact ⟨rfl, rfl⟩
      · have hd : d ≠ d0 := by
          intro he
          subst he
          rcases h with h | h
          · exact h (List.mem_cons_self d rest)
          · exact hsel h
        rw [processDate_comp_pos db all st d0 hsel d, if_neg hd,
          processDate_perf_pos db all st d0 hsel d, if_neg hd]
        exact ⟨rfl, rfl⟩
    have hrest : d ∉ rest ∨ selectTop db d = [] := by
      rcases h with h | h
      · exact Or.inl (fun hm => h (List.mem_cons_of_mem d0 hm))
      · exact Or.inr h
    rcases ih (processDate db all st d0) d hrest with ⟨h1, h2⟩
    exact ⟨h1.trans hstep.1, h2.trans hstep.2⟩

theorem runAux_congr (db : PriceDB) (all : List ℕ) (hnd : all.Nodup) :
    ∀ (ds pre : List ℕ) (st1 st2 : EngState),
      all = pre ++ ds →
      st1.count = st2.count → st1.count ≤ pre.length → st1.prevVal = st2.prevVal →
      (∀ d, st1.comp d = st2.comp d ∨ (d ∈ ds ∧ selectTop db d ≠ [])) →
      (∀ d, st1.perf d = st2.perf d ∨ (d ∈ ds ∧ selectTop db d ≠ [])) →
      (∀ d, (runAux db all st1 ds).comp d = (runAux db all st2 ds).comp d) ∧
      (∀ d, (runAux db all st1 ds).perf d = (runAux db all st2 ds).perf d) := by
  intro ds
  induction ds with
  | nil =>
    intro pre st1 st2 hall hc hcle hv hcomp hperf
    constructor
    · intro d
      rcases hcomp d with h | h
      · exact h
      · exact absurd h.1 (List.not_mem_nil d)
    · intro d
      rcases hperf d with h | h
      · exact h
      · exact absurd h.1 (List.not_mem_nil d)
  | cons d0 rest ih =>
    intro pre st1 st2 hall hc hcle hv hcomp hperf
    have hall' : all = (pre ++ [d0]) ++ rest := by
      rw [hall]
      simp
    by_cases hsel : selectTop db d0 = []
    · have hs1 : processDate db all st1 d0 = st1 := processDate_skip db all st1 d0 hsel
      have hs2 : processDate db all st2 d0 = st2 := processDate_skip db all st2 d0 hsel
      have hcomp' : ∀ d, st1.comp d = st2.comp d ∨ (d ∈ rest ∧ selectTop db d ≠ []) := by
        intro d
        rcases hcomp d with h | ⟨hm, hne⟩
        · exact Or.inl h
        · rw [List.mem_cons] at hm
          rcases hm with hm | hm
          · subst hm
            exact absurd hsel hne
          · exact Or.inr ⟨hm, hne⟩
      have hperf' : ∀ d, st1.perf d = st2.perf d ∨ (d ∈ rest ∧ selectTop db d ≠ []) := by
        intro d
        rcases hperf d with h | ⟨hm, hne⟩
        · exact Or.inl h
        · rw [List.mem_cons] at hm
          rcases hm with hm | hm
          · subst hm
            exact absurd hsel hne
          · exact Or.inr ⟨hm, hne⟩
      have hcle' : st1.count ≤ (pre ++ [d0]).length := by
        rw [List.length_append]
        exact le_trans hcle (Nat.le_add_right _ _)
      have key := ih (pre ++ [d0]) st1 st2 hall' hc hcle' hv hcomp' hperf'
      constructor
      · intro d
        have h1 : (runAux db all (processDate db all st1 d0) rest).comp d =
            (runAux db all (processDate db all st2 d0) rest).comp d := by
          rw [hs1, hs2]
          exact key.1 d
        exact h1
      · intro d
        have h2 : (runAux db all (processDate db all st1 d0) rest).perf d =
            (runAux db all (processDate db all st2 d0) rest).perf d := by
          rw [hs1, hs2]
          exact key.2 d
        exact h2
    · have htrip : perfTriple db all st1 d0 = perfTriple db all st2 d0 := by
        rw [perfTriple, perfTriple, ← hc, hv]
        by_cases hc0 : st1.count = 0
        · rw [if_pos hc0, if_pos hc0]
        · have hlt : st1.count - 1 < pre.length := by
            have := Nat.pos_of_ne_zero hc0
            omega
          have hpdpre : all.getD (st1.count - 1) 0 ∈ pre := by
            rw [hall, getD_append_left pre (d0 :: rest) (st1.count - 1) 0 hlt]
            exact getD_mem pre (st1.count - 1) 0 hlt
          have hnd' : (pre ++ (d0 :: rest)).Nodup := hall ▸ hnd
          have hdisj := (List.nodup_append.mp hnd').2.2
          have hpdnotin : all.getD (st1.count - 1) 0 ∉ d0 :: rest :=
            fun hmem => hdisj hpdpre hmem
          have hcomppd : st1.comp (all.getD (st1.count - 1) 0) =
              st2.comp (all.getD (st1.count - 1) 0) := by
            rcases hcomp (all.getD (st1.count - 1) 0) with h | h
            · exact h
            · exact absurd h.1 hpdnotin
          rw [hcomppd]
      have hc' : (processDate db all st1 d0).count = (processDate db all st2 d0).count := by
        rw [processDate_count_pos db all st1 d0 hsel, processDate_count_pos db all st2 d0 hsel,
          hc]
      have hcle' : (processDate db all st1 d0).count ≤ (pre ++ [d0]).length := by
        rw [processDate_count_pos db all st1 d0 hsel, List.length_append]
        simpa using Nat.add_le_add_right hcle 1
      have hv' : (processDate db all st1 d0).prevVal = (processDate db all st2 d0).prevVal := by
        rw [processDate_prevVal_pos db all st1 d0 hsel,
          processDate_prevVal_pos db all st2 d0 hsel, htrip]
      have hcomp' : ∀ d, (processDate db all st1 d0).comp d = (processDate db all st2 d0).comp d ∨
          (d ∈ rest ∧ selectTop db d ≠ []) := by
        intro d
        rw [processDate_comp_pos db all st1 d0 hsel d, processDate_comp_pos db all st2 d0 hsel d]
        by_cases hd : d = d0
        · rw [if_pos hd, if_pos hd]
          exact Or.inl rfl
        · rw [if_neg hd, if_neg hd]
          rcases hcomp d with h | ⟨hm, hne⟩
          · exact Or.inl h
          · rw [List.mem_cons] at hm
            rcases hm with hm | hm
            · exact absurd hm hd
            · exact Or.inr ⟨hm, hne⟩
      have hperf' : ∀ d, (processDate db all st1 d0).perf d = (processDate db all st2 d0).perf d ∨
          (d ∈ rest ∧ selectTop db d ≠ []) := by
        intro d
        rw [processDate_perf_pos db all st1 d0 hsel d, processDate_perf_pos db all st2 d0 hsel d]
        by_cases hd : d = d0
        · rw [if_pos hd, if_pos hd, htrip]
          exact Or.inl rfl
        · rw [if_neg hd, if_neg hd]
          rcases hperf d with h | ⟨hm, hne⟩
          · exact Or.inl h
          · rw [List.mem_cons] at hm
            rcases hm with hm | hm
            · exact absurd hm hd
            · exact Or.inr ⟨hm, hne⟩
      exact ih (pre ++ [d0]) (processDate db all st1 d0) (processDate db all st2 d0) hall' hc'
        hcle' hv' hcomp' hperf'

theorem calculate_daily_index_run (db : PriceDB) (start_date end_date : ℕ) (t : Tables)
    (hne : tradingDates db start_date end_date ≠ []) :
    calculate_daily_index db start_date end_date t =
      ⟨(runAux db (tradingDates db start_date end_date) ⟨t.comp, t.perf, BASE_INDEX_VALUE, 0⟩
          (tradingDates db start_date end_date)).comp,
       (runAux db (tradingDates db start_date end_date) ⟨t.comp, t.perf, BASE_INDEX_VALUE, 0⟩
          (tradingDates db start_date end_date)).perf⟩ := by
  rw [calculate_daily_index, if_neg hne]

/-- Claim C9: running `calculate_daily_index` a second time over the same price
data and date range, starting from the tables the first run produced, yields
exactly the same tables (replace semantics: each processed date's rows are
deleted and rewritten identically, skipped and out-of-range dates pass
through). -/
theorem spec_C9 (db : PriceDB) (start_date end_date : ℕ) (t : Tables) :
    calculate_daily_index db start_date end_date
        (calculate_daily_index db start_date end_date t) =
      calculate_daily_index db start_date end_date t := by
  by_cases hne : tradingDates db start_date end_date = []
  · rw [calculate_daily_index]
    rw [if_pos hne]
  · have hr1 := calculate_daily_index_run db start_date end_date t hne
    rw [hr1]
    rw [calculate_daily_index_run db start_date end_date _ hne]
    have hnd := tradingDates_nodup db start_date end_date
    have huntouched : ∀ d, (d ∉ tradingDates db start_date end_date ∨ selectTop db d = []) →
        (runAux db (tradingDates db start_date end_date) ⟨t.comp, t.perf, BASE_INDEX_VALUE, 0⟩
          (tradingDates db start_date end_date)).comp d = t.comp d ∧
        (runAux db (tradingDates db start_date end_date) ⟨t.comp, t.perf, BASE_INDEX_VALUE, 0⟩
          (tradingDates db start_date end_date)).perf d = t.perf d :=
      fun d h => runAux_untouched db (tradingDates db start_date end_date)
        (tradingDates db start_date end_date) ⟨t.comp, t.perf, BASE_INDEX_VALUE, 0⟩ d h
    have key := runAux_congr db (tradingDates db start_date end_date) hnd
      (tradingDates db start_date end_date) []
      ⟨(runAux db (tradingDates db start_date end_date) ⟨t.comp, t.perf, BASE_INDEX_VALUE, 0⟩
          (tradingDates db start_date end_date)).comp,
       (runAux db (tradingDates db start_date end_date) ⟨t.comp, t.perf, BASE_INDEX_VALUE, 0⟩
          (tradingDates db start_date end_date)).perf, BASE_INDEX_VALUE, 0⟩
      ⟨t.comp, t.perf, BASE_INDEX_VALUE, 0⟩
      rfl rfl (Nat.le_refl 0) rfl
      (by
        intro d
        by_cases hd : d ∈ tradingDates db start_date end_date ∧ selectTop db d ≠ []
        · exact Or.inr hd
        · left
          have hcase : d ∉ tradingDates db start_date end_date ∨ selectTop db d = [] := by
            by_cases h1 : d ∈ tradingDates db start_date end_date
            · right
              by_contra h2
              exact hd ⟨h1, h2⟩
            · exact Or.inl h1
          exact (huntouched d hcase).1)
      (by
        intro d
        by_cases hd : d ∈ tradingDates db start_date end_date ∧ selectTop db d ≠ []
        · exact Or.inr hd
        · left
          have hcase : d ∉ tradingDates db start_date end_date ∨ selectTop db d = [] := by
            by_cases h1 : d ∈ tradingDates db start_date end_date
            · right
              by_contra h2
              exact hd ⟨h1, h2⟩
            · exact Or.inl h1
          exact (huntouched d hcase).2)
    apply Tables.ext
    · funext d
      exact key.1 d
    · funext d
      exact key.2 d
